import Mathlib

/-!
Verification of the streaming core of the Sonar CLI coding agent:
the conversation-log discipline of `CodingAgent` (src/cli-coding-agent/src/core/agent.ts),
the SSE line-parsing loop of `APIClient.chatStream` (src/cli-coding-agent/src/core/api.ts),
and the incremental fenced-block `CodeExtractor` (src/cli-coding-agent/src/Handler.ts).

JavaScript strings are modelled as `String` where they are only stored and as
`List Char` where they are scanned character by character.  Effects that leave
the core (terminal output via `UI.*`, `fs.existsSync`, `path.join`) are not part
of the modelled state; `FileArtifact` is therefore modelled by its `filename`
and `content` fields, which is all the claims compare.
-/

namespace Sonar

/-- Message roles (`Message` interface in core/api.ts). -/
inductive Role
  | system
  | user
  | assistant
  deriving DecidableEq, Repr

/-- A chat message: `{role, content}` (core/api.ts). -/
structure Message where
  role : Role
  content : String
  deriving DecidableEq, Repr

/-- The `SYSTEM_PROMPT` constant of core/agent.ts (verbatim). -/
def SYSTEM_PROMPT : String :=
  "You are Cody, a friendly and expert coding assistant.\n\n## Your Personality:\n- You're helpful, conversational, and knowledgeable\n- You chat naturally when users want to talk\n- You switch to coding mode when users need code\n- You're concise but not robotic\n\n## When to Code:\nOnly use the file format when users:\n- Ask you to create, write, or generate files\n- Ask you to build something\n- Request code for a specific purpose\n- Say \"make\", \"create\", \"build\", \"write code\", etc.\n\n## When to Chat:\nJust respond normally when users:\n- Say hi, hello, or greet you\n- Ask questions about concepts\n- Want explanations or advice\n- Are having a conversation\n\n## File Creation Format:\nWhen creating files, use this exact format:\n\n```python:script.py\n# code here\n```\n\n```typescript:src/utils/helper.ts\n// code here\n```\n\nFormat: ```language:path/to/filename.ext\n\n## Coding Rules (when coding):\n1. Write complete, functional code\n2. Include error handling\n3. Follow best practices\n4. Create full project structures when needed\n5. Be concise - code speaks louder than explanations\n\n## Your Expertise:\n- Full-stack web development\n- System scripts and automation\n- APIs, CLIs, games, data processing\n- Any programming language or framework\n\nYou're a developer's companion - chat when they want to chat, code when they need code."

/-- The conversation log created by the `CodingAgent` constructor:
`[{ role: "system", content: SYSTEM_PROMPT }]`. -/
def initialHistory : List Message := [⟨Role.system, SYSTEM_PROMPT⟩]

/-- Effect of `CodingAgent.send` on `conversationHistory`.  The user message is
pushed; on success (`response = some r`) the assistant message is pushed; on a
thrown error (`response = none`) the `catch` block pops the user message. -/
def sendLog (hist : List Message) (userMessage : String) (response : Option String) :
    List Message :=
  let h1 := hist ++ [(⟨Role.user, userMessage⟩ : Message)]
  match response with
  | some r => h1 ++ [⟨Role.assistant, r⟩]
  | none => h1.dropLast

/-- Effect of `CodingAgent.sendStream`'s `finally` block on `conversationHistory`,
given the accumulated `fullResponse` and the `success` flag.  On
`success && fullResponse` the assistant message is pushed; on `!success` the
log is spliced at `indexOf(userMsg)` — `userMsg` is the freshly created object
pushed at the start of the turn, and JavaScript `indexOf` compares objects by
reference, so the splice removes exactly the element at index `hist.length`.
When the turn succeeds with an empty `fullResponse` neither branch runs. -/
def sendStreamLog (hist : List Message) (userMessage fullResponse : String)
    (success : Bool) : List Message :=
  let h1 := hist ++ [(⟨Role.user, userMessage⟩ : Message)]
  if success = true ∧ fullResponse ≠ "" then h1 ++ [⟨Role.assistant, fullResponse⟩]
  else if success = false then h1.eraseIdx hist.length
  else h1

/-- Effect of `CodingAgent.clearHistory`: the log is reset to the single system
message. -/
def clearHistoryLog : List Message := [⟨Role.system, SYSTEM_PROMPT⟩]

/-- Effect of `CodingAgent.updateSystemPrompt`: when element 0 has role
`system`, its content is replaced by `SYSTEM_PROMPT + "\n\n" + addition`. -/
def updateSystemPromptLog (hist : List Message) (addition : String) : List Message :=
  match hist with
  | [] => []
  | m :: rest =>
      if m.role = Role.system then
        { m with content := SYSTEM_PROMPT ++ "\n\n" ++ addition } :: rest
      else m :: rest

/-- The log-mutating operations of `CodingAgent`.  `send` carries the outcome of
the non-streaming request, `sendStream` the accumulated reply and success flag
of the streamed turn. -/
inductive AgentOp
  | send (userMessage : String) (response : Option String)
  | sendStream (userMessage fullResponse : String) (success : Bool)
  | clearHistory
  | updateSystemPrompt (addition : String)

/-- Apply one `CodingAgent` operation to the conversation log. -/
def applyOp (hist : List Message) : AgentOp → List Message
  | .send u resp => sendLog hist u resp
  | .sendStream u fr s => sendStreamLog hist u fr s
  | .clearHistory => clearHistoryLog
  | .updateSystemPrompt a => updateSystemPromptLog hist a

/-- The conversation log after a sequence of operations, starting from the
constructor's log. -/
def runAgent (ops : List AgentOp) : List Message := ops.foldl applyOp initialHistory

/-! ## The incremental fenced-block extractor (Handler.ts, `class CodeExtractor`) -/

/-- Whitespace removed by JavaScript `String.prototype.trim` (ASCII range). -/
def isJsSpace (c : Char) : Bool :=
  c = ' ' || c = '\t' || c = '\n' || c = '\r' || c = '\x0b' || c = '\x0c'

/-- JavaScript `s.trim()` on the character-list model. -/
def jsTrim (l : List Char) : List Char :=
  ((l.dropWhile isJsSpace).reverse.dropWhile isJsSpace).reverse

/-- The regex class `\w`: `[A-Za-z0-9_]`. -/
def isWordChar (c : Char) : Bool := c.isAlpha || c.isDigit || c = '_'

/-- Match of the opening-fence regex `(\x60\x60\x60)(\w+):([^\n]+)\n` anchored
at the head of the list (backticks written as `\x60`).  Returns the path
capture (`match[2]`) and the remainder after the matched text.  The greedy
`\w+` and `[^\n]+` need no backtracking because the characters that must
follow them (`:` and `\n`) are outside the respective classes. -/
def tryOpenAt : List Char → Option (List Char × List Char)
  | a :: b :: c :: rest =>
      if a = '\x60' ∧ b = '\x60' ∧ c = '\x60' then
        let tag := rest.takeWhile isWordChar
        let afterTag := rest.dropWhile isWordChar
        if tag = [] then none
        else if afterTag.head? = some ':' then
          let rest2 := afterTag.tail
          let path := rest2.takeWhile (fun ch => ch != '\n')
          let afterPath := rest2.dropWhile (fun ch => ch != '\n')
          if path = [] then none
          else if afterPath.head? = some '\n' then some (path, afterPath.tail)
          else none
        else none
      else none
  | _ => none

/-- Leftmost match of the opening-fence regex, as found by
`this.buffer.match(...)`: positions are tried left to right.  The remainder
returned is `buffer.slice(buffer.indexOf(match[0]) + match[0].length)` — the
first occurrence of the matched text is the match position itself, since an
earlier occurrence would itself be an earlier regex match. -/
def matchOpen : List Char → Option (List Char × List Char)
  | [] => none
  | c :: rest =>
      match tryOpenAt (c :: rest) with
      | some r => some r
      | none => matchOpen rest

/-- Does the list start with the three-character closing fence? -/
def startsWithFence : List Char → Bool
  | a :: b :: c :: _ => a = '\x60' && b = '\x60' && c = '\x60'
  | _ => false

/-- Index returned by `this.buffer.indexOf("\x60\x60\x60")` for the first closing fence,
`none` for `-1`. -/
def indexOfTriple : List Char → Option Nat
  | [] => none
  | c :: rest =>
      if startsWithFence (c :: rest) then some 0
      else (indexOfTriple rest).map (· + 1)

/-- A produced file artifact.  The `fullPath` and `isNew` fields of the
source's `PendingFile` are derived from the environment (`path.join`,
`fs.existsSync`) and are outside the model; the claims compare filenames and
bodies. -/
structure Artifact where
  filename : List Char
  content : List Char
  deriving DecidableEq, Repr

/-- The private fields of `CodeExtractor` (the `dir` field only feeds
`fullPath` and is omitted with it). -/
structure ExtractorState where
  buffer : List Char
  inBlock : Bool
  filename : List Char
  code : List Char
  extractedFiles : List Artifact
  deriving DecidableEq, Repr

/-- Extractor state at construction / after `reset()`. -/
def initExtractor : ExtractorState := ⟨[], false, [], [], []⟩

/-- The `!this.inBlock` (scanning) branch of `CodeExtractor.process`: on a
regex match, enter the block, record the trimmed path, clear the body and drop
the buffer up to the end of the match (the `UI.toolCall` side effect is
display-only); otherwise trim the lookback buffer to its last 200 characters. -/
def scanStep (st : ExtractorState) : ExtractorState :=
  match matchOpen st.buffer with
  | some (path, rest) =>
      { st with inBlock := true, filename := jsTrim path, code := [], buffer := rest }
  | none =>
      if st.buffer.length > 200 then
        { st with buffer := st.buffer.drop (st.buffer.length - 200) }
      else st

/-- Body of `CodeExtractor.process` after `this.buffer += chunk` has been folded in.
In a block, a found closing fence commits the body up to it as an artifact and
leaves the rest of the buffer; the trailing `if (this.buffer.length > 0)
this.process("")` re-enters with `inBlock === false`, which is exactly the
scanning branch (`scanStep`).  With no closing fence in sight, all but the
last 10 characters move from the buffer into the body, so a fence split
across chunk boundaries is still found. -/
def processBuf (st : ExtractorState) : ExtractorState :=
  if st.inBlock = false then scanStep st
  else
    match indexOfTriple st.buffer with
    | some endIndex =>
        let newCode := st.code ++ st.buffer.take endIndex
        let st2 : ExtractorState :=
          { st with
            extractedFiles := st.extractedFiles ++ [⟨st.filename, jsTrim newCode⟩],
            buffer := st.buffer.drop (endIndex + 3),
            inBlock := false, code := [], filename := [] }
        if st2.buffer.length > 0 then scanStep st2 else st2
    | none =>
        if st.buffer.length > 10 then
          { st with
            code := st.code ++ st.buffer.take (st.buffer.length - 10),
            buffer := st.buffer.drop (st.buffer.length - 10) }
        else st

/-- One call of `CodeExtractor.process(chunk)`. -/
def process (st : ExtractorState) (chunk : List Char) : ExtractorState :=
  processBuf { st with buffer := st.buffer ++ chunk }

/-- Run the extractor over the delivered chunks, from a fresh state — the
`for await` loop body of `sendMessage`. -/
def feed (chunks : List (List Char)) : ExtractorState :=
  chunks.foldl process initExtractor

/-- The artifacts `CodeExtractor.flush` pushes onto `pendingFiles`: the blocks
completed during the turn, plus a best-effort artifact for an open block —
but only when the committed body `this.code` is non-empty. -/
def flushArtifacts (st : ExtractorState) : List Artifact :=
  if st.inBlock = true ∧ st.code ≠ [] then
    st.extractedFiles ++ [⟨st.filename, jsTrim (st.code ++ st.buffer)⟩]
  else st.extractedFiles

/-- Artifacts a whole turn hands to `pendingFiles`. -/
def extract (chunks : List (List Char)) : List Artifact :=
  flushArtifacts (feed chunks)

/-- State of `pendingFiles` after one `sendMessage` turn that received `yielded` chunks:
on the failure path the `catch` block runs `extractor.flush()` before
rethrowing, and on the success path `flush()` runs after the loop — both push
the extractor's artifacts. -/
def turnPendingFiles (pending : List Artifact) (yielded : List (List Char))
    (failed : Bool) : List Artifact :=
  if failed = true then pending ++ flushArtifacts (feed yielded)
  else pending ++ flushArtifacts (feed yielded)

/-- The spec's concrete reply text and a two-chunk split of it at the end of
the opening fence line. -/
def c2Reply : List Char := "Sure!\n```python:hello.py\nprint(\"hi\")\n```\nDone.".toList

def c2ChunkA : List Char := "Sure!\n```python:hello.py\n".toList

def c2ChunkB : List Char := "print(\"hi\")\n```\nDone.".toList

def c4Chunk : List Char := "```python:a.py\nhi".toList

def c4wA : List Char := "```py:a.py\n".toList

def c4wB : List Char := "0123456789ABCD".toList

def c10wA : List Char := "before\n```c+".toList

def c10wB : List Char := "+:main.cpp\nint x = 0;\n``` after".toList

/-! ## The SSE stream client (core/api.ts, `APIClient.chatStream`)

`JSON.parse` and the subsequent property accesses are a platform call, modelled
by a parameter `parse : List Char → PayloadInfo` classifying a payload as
malformed JSON (`SyntaxError`), or as parsed with an optional truthy `error`
member (carrying the resulting error message) and an optional
`choices[0].delta.content` string. -/

/-- Outcome of `JSON.parse` plus the property accesses performed on the parsed
value. -/
inductive PayloadInfo
  | malformed
  | ok (error : Option (List Char)) (content : Option (List Char))
  deriving DecidableEq, Repr

/-- Effect of `buffer.split("\n")` followed by `buffer = lines.pop() || ""`: the complete
lines and the trailing segment after the last newline. -/
def splitLast : List Char → List (List Char) × List Char
  | [] => ([], [])
  | c :: rest =>
      let p := splitLast rest
      if c = '\n' then ([] :: p.1, p.2)
      else
        match p.1 with
        | [] => ([], c :: p.2)
        | l :: ls => ((c :: l) :: ls, p.2)

/-- The `"data: "` line marker. -/
def dataMark : List Char := "data: ".toList

/-- The `"[DONE]"` sentinel payload. -/
def doneMark : List Char := "[DONE]".toList

/-- What processing one complete line does (the body of the `for` loop over
`lines`): skip it, yield a content delta, return (`[DONE]`), or throw. -/
inductive LineStep
  | skip
  | yield (content : List Char)
  | done
  | fail (msg : List Char)
  deriving DecidableEq, Repr

/-- One iteration of the line loop in `chatStream`: trim the line; skip empty
lines; for `data: ` lines, return on the `[DONE]` sentinel, else parse — a
`SyntaxError` is swallowed (skip), a truthy `error` member is thrown, a truthy
content delta is yielded; for other lines starting with `{` (written `\x7b`),
parse and throw on a truthy `error` member, otherwise skip. -/
def processLine (parse : List Char → PayloadInfo) (line : List Char) : LineStep :=
  let trimmed := jsTrim line
  if trimmed = [] then .skip
  else if dataMark.isPrefixOf trimmed then
    let data := trimmed.drop 6
    if data = doneMark then .done
    else
      match parse data with
      | .malformed => .skip
      | .ok (some m) _ => .fail m
      | .ok none (some content) => if content ≠ [] then .yield content else .skip
      | .ok none none => .skip
  else if trimmed.head? = some '\x7b' then
    match parse trimmed with
    | .ok (some m) _ => .fail m
    | _ => .skip
  else .skip

/-- Result of running a batch of lines: either all were consumed (`more`) or
the loop terminated early (`stopped`), gracefully (`err = none`, the `[DONE]`
return) or by a thrown error. -/
inductive RunOut
  | more (yielded : List (List Char))
  | stopped (yielded : List (List Char)) (err : Option (List Char))
  deriving DecidableEq, Repr

/-- Run the line loop over a list of complete lines. -/
def runLines (parse : List Char → PayloadInfo) : List (List Char) → RunOut
  | [] => .more []
  | l :: ls =>
      match processLine parse l with
      | .skip => runLines parse ls
      | .yield content =>
          match runLines parse ls with
          | .more ys => .more (content :: ys)
          | .stopped ys e2 => .stopped (content :: ys) e2
      | .done => .stopped [] none
      | .fail m => .stopped [] (some m)

/-- Sequencing of two line-loop runs (the second batch is only reached when the
first did not stop). -/
def seqOut : RunOut → RunOut → RunOut
  | .stopped ys e2, _ => .stopped ys e2
  | .more ys, .more zs => .more (ys ++ zs)
  | .more ys, .stopped zs e2 => .stopped (ys ++ zs) e2

/-- The final-buffer handling after the read loop ends: a non-empty trimmed
remainder that is a `data: ` line other than `[DONE]` is parsed inside a
`try {...} catch {}` that extracts and yields a truthy content delta and
swallows everything else — including error envelopes. -/
def finalTail (parse : List Char → PayloadInfo) (buffer : List Char) :
    List (List Char) :=
  let trimmed := jsTrim buffer
  if trimmed ≠ [] ∧ dataMark.isPrefixOf trimmed ∧ trimmed.drop 6 ≠ doneMark then
    match parse (trimmed.drop 6) with
    | .ok _ (some content) => if content ≠ [] then [content] else []
    | _ => []
  else []

/-- Observable outcome of one `chatStream` call: the deltas yielded in order,
and `none` for graceful termination or `some msg` for a thrown error. -/
structure StreamOutcome where
  yielded : List (List Char)
  err : Option (List Char)
  deriving DecidableEq, Repr

/-- The read loop of `chatStream` over the decoded network chunks: each chunk
is appended to the carried buffer, the complete lines are processed (stopping
early on `[DONE]` or a thrown error, in which case later chunks are never
read), and at end of stream the final buffer is handled. -/
def runChunks (parse : List Char → PayloadInfo) (buffer : List Char) :
    List (List Char) → StreamOutcome
  | [] => ⟨finalTail parse buffer, none⟩
  | c :: cs =>
      let pieces := splitLast (buffer ++ c)
      match runLines parse pieces.1 with
      | .stopped ys e2 => ⟨ys, e2⟩
      | .more ys =>
          let rest := runChunks parse pieces.2 cs
          ⟨ys ++ rest.yielded, rest.err⟩

/-- A whole `chatStream` call starts with an empty carried buffer. -/
def chatStreamModel (parse : List Char → PayloadInfo)
    (chunks : List (List Char)) : StreamOutcome :=
  runChunks parse [] chunks

/-- A concrete payload classifier for witnesses: `"BAD"` is malformed JSON,
`"ERR"` is an envelope with an error member, anything else parses to a content
delta equal to the payload. -/
def samplePI (data : List Char) : PayloadInfo :=
  if data = "BAD".toList then .malformed
  else if data = "ERR".toList then .ok (some ("boom".toList)) none
  else .ok none (some data)

/-! ## Error taxonomy (core/api.ts throw sites, Handler.ts retry branch) -/

/-- A JavaScript error value as observed by the Handler's catch: its `name`
and `message`. -/
structure JsError where
  name : List Char
  message : List Char
  deriving DecidableEq, Repr

/-- The `new Error("API Error (" + status + "): " + body)` thrown on a non-2xx
response (`name` of a plain `Error` is `"Error"`). -/
def mkApiError (status body : List Char) : JsError :=
  ⟨"Error".toList, "API Error (".toList ++ status ++ "): ".toList ++ body⟩

/-- The `new Error(parsed.error.message || JSON.stringify(parsed.error))` thrown on
a protocol error envelope. -/
def mkEnvelopeError (msg : List Char) : JsError := ⟨"Error".toList, msg⟩

/-- Modelled from the platform: an aborted `fetch`/`reader.read()` rejects with
a `DOMException` named `"AbortError"`.  Both the armed timeout
(`setTimeout(() => this.abortController?.abort(), timeout)`) and an explicit
`abort()` call fire the same controller. -/
def abortError : JsError :=
  ⟨"AbortError".toList, "This operation was aborted".toList⟩

/-- Why an in-flight stream was aborted. -/
inductive AbortCause
  | timeout
  | cancelled

/-- The error with which a timed-out or cancelled stream fails. -/
def streamAbortFailure : AbortCause → JsError
  | .timeout => abortError
  | .cancelled => abortError

/-- JavaScript `l.includes(pat)`: some suffix of `l` starts with `pat`. -/
def hasSub (pat : List Char) : List Char → Bool
  | [] => pat.isPrefixOf ([] : List Char)
  | c :: rest => pat.isPrefixOf (c :: rest) || hasSub pat rest

/-- The retry branch of the Handler's prompt loop:
`err.name === "AbortError" || err.message.includes("timeout")` selects the
"Request timed out. Try /retry" suggestion. -/
def isRetrySuggested (err : JsError) : Bool :=
  err.name = "AbortError".toList || hasSub ("timeout".toList) err.message

/-- The chunk loop is equivalent to: split the whole delivered text into lines
once, run the line loop over them, and handle the invariantly-determined
trailing segment. -/
def runAll (parse : List Char → PayloadInfo)
    (p : List (List Char) × List Char) : StreamOutcome :=
  match runLines parse p.1 with
  | .stopped ys e2 => ⟨ys, e2⟩
  | .more ys => ⟨ys ++ finalTail parse p.2, none⟩

theorem dropLast_append_single {α : Type} (l : List α) (x : α) :
    (l ++ [x]).dropLast = l := by
  induction l with
  | nil => rfl
  | cons a t ih => simp [List.dropLast, ih]

theorem eraseIdx_append_single {α : Type} (l : List α) (x : α) :
    (l ++ [x]).eraseIdx l.length = l := by
  induction l with
  | nil => rfl
  | cons a t ih => simpa [List.eraseIdx] using ih

theorem sendStreamLog_failure (hist : List Message) (u fr : String) :
    sendStreamLog hist u fr false = hist := by
  simp [sendStreamLog, eraseIdx_append_single]

/-- Claim C1 (counterexample).  The claim states that a turn completing with an
empty accumulated reply removes the just-appended user message, leaving the log
length unchanged.  On the code, a successful turn with empty `fullResponse`
satisfies neither `success && fullResponse` nor `!success`, so the user message
stays: from the one-element initial log, the log after such a turn has the
dangling user message and length 2. -/
theorem sendStream_empty_reply_keeps_user_message :
    sendStreamLog initialHistory "hi" "" true
      = initialHistory ++ [⟨Role.user, "hi"⟩] ∧
    initialHistory.length = 1 ∧
    (sendStreamLog initialHistory "hi" "" true).length = 2 := by
  refine ⟨by simp [sendStreamLog], rfl, by simp [sendStreamLog, initialHistory]⟩

/-- Claim C1 (amended).  Rollback happens exactly on failure: for a turn that
fails (transport error, timeout, cancellation) the just-appended user message
is removed and the log is exactly what it was before the turn; for a turn that
completes gracefully with an empty accumulated reply the user message is kept
(no assistant message is appended), so the log grows by one entry. -/
theorem sendStream_rollback_on_failure_only (hist : List Message) (u fr : String) :
    sendStreamLog hist u fr false = hist ∧
    sendStreamLog hist u "" true = hist ++ [⟨Role.user, u⟩] := by
  exact ⟨sendStreamLog_failure hist u fr, by simp [sendStreamLog]⟩

/-- Claim C6.  A streamed turn that completes gracefully with non-empty
accumulated content appends exactly two entries to the conversation log: the
user message followed by the assistant message whose content is the
concatenation of all yielded deltas (`fullResponse`). -/
theorem sendStream_commit_two_entries (hist : List Message) (u fr : String)
    (h : fr ≠ "") :
    sendStreamLog hist u fr true
      = hist ++ [⟨Role.user, u⟩, ⟨Role.assistant, fr⟩] ∧
    (sendStreamLog hist u fr true).length = hist.length + 2 := by
  have h1 : sendStreamLog hist u fr true
      = hist ++ [⟨Role.user, u⟩, ⟨Role.assistant, fr⟩] := by
    simp [sendStreamLog, h]
  exact ⟨h1, by simp [h1]⟩

/-- Concrete instance of `sendStream_commit_two_entries`. -/
theorem sendStream_commit_two_entries_witness :
    ("ok" : String) ≠ "" ∧
    (sendStreamLog initialHistory "hi" "ok" true
        = initialHistory ++ [⟨Role.user, "hi"⟩, ⟨Role.assistant, "ok"⟩] ∧
      (sendStreamLog initialHistory "hi" "ok" true).length
        = initialHistory.length + 2) :=
  ⟨by decide, sendStream_commit_two_entries initialHistory "hi" "ok" (by decide)⟩

theorem applyOp_system_head (hist : List Message) (op : AgentOp)
    (h : ∃ c rest, hist = (⟨Role.system, c⟩ : Message) :: rest) :
    ∃ c rest, applyOp hist op = (⟨Role.system, c⟩ : Message) :: rest := by
  obtain ⟨c, rest, rfl⟩ := h
  cases op with
  | send u resp =>
      cases resp with
      | some r => exact ⟨c, rest ++ [⟨Role.user, u⟩, ⟨Role.assistant, r⟩], by
          simp [applyOp, sendLog]⟩
      | none => exact ⟨c, rest, by
          simp only [applyOp, sendLog]
          exact dropLast_append_single _ _⟩
  | sendStream u fr s =>
      cases s with
      | false => exact ⟨c, rest, by simp [applyOp, sendStreamLog_failure]⟩
      | true =>
          by_cases hfr : fr = ""
          · exact ⟨c, rest ++ [⟨Role.user, u⟩], by simp [applyOp, sendStreamLog, hfr]⟩
          · exact ⟨c, rest ++ [⟨Role.user, u⟩, ⟨Role.assistant, fr⟩], by
              simp [applyOp, sendStreamLog, hfr]⟩
  | clearHistory => exact ⟨SYSTEM_PROMPT, [], rfl⟩
  | updateSystemPrompt a =>
      refine ⟨SYSTEM_PROMPT ++ "\n\n" ++ a, rest, ?_⟩
      simp [applyOp, updateSystemPromptLog]

theorem foldl_applyOp_system_head (ops : List AgentOp) :
    ∀ hist : List Message,
      (∃ c rest, hist = (⟨Role.system, c⟩ : Message) :: rest) →
      ∃ c rest, ops.foldl applyOp hist = (⟨Role.system, c⟩ : Message) :: rest := by
  induction ops with
  | nil => intro hist h; simpa using h
  | cons op ops ih =>
      intro hist h
      exact ih (applyOp hist op) (applyOp_system_head hist op h)

/-- Claim C8.  After any sequence of `CodingAgent` operations (construction,
`send`, `sendStream` with success or failure, `clearHistory`,
`updateSystemPrompt`), element 0 of the conversation log exists and has role
`system`: no operation ever removes it, at most its content is replaced. -/
theorem system_message_always_first (ops : List AgentOp) :
    ∃ c rest, runAgent ops = (⟨Role.system, c⟩ : Message) :: rest :=
  foldl_applyOp_system_head ops initialHistory ⟨SYSTEM_PROMPT, [], rfl⟩

theorem takeWhile_append_stop {p : Char → Bool} (a : List Char) (x : Char)
    (y : List Char) (ha : a.all p = true) (hx : p x = false) :
    (a ++ x :: y).takeWhile p = a ∧ (a ++ x :: y).dropWhile p = x :: y := by
  induction a with
  | nil => simp [List.takeWhile_cons, List.dropWhile_cons, hx]
  | cons c t ih =>
      have hca : p c = true ∧ t.all p = true := by simpa using ha
      rcases ih hca.2 with ⟨h1, h2⟩
      simp [List.takeWhile_cons, List.dropWhile_cons, hca.1, h1, h2]

/-- Claim C2.  Fence-boundary invariance fails on the code: fed as a single
chunk, a complete fenced reply yields no artifact at all — after the opening
fence matches, `process` returns without rescanning the rest of the chunk, so
the body and closing fence stay in the buffer, and `flush` drops an open block
whose committed body is empty.  Split in two at the end of the fence line, the
same reply yields the expected artifact.  The claim demands both feeds agree. -/
theorem extractor_single_chunk_vs_split :
    c2ChunkA ++ c2ChunkB = c2Reply ∧
    extract [c2Reply] = [] ∧
    extract [c2ChunkA, c2ChunkB]
      = [⟨"hello.py".toList, "print(\"hi\")".toList⟩] := by
  decide

/-- Claim C3 (counterexample).  A turn that fails after the closing fence was
delivered still pushes the completed artifact onto `pendingFiles`: the `catch`
branch of `sendMessage` force-flushes instead of discarding. -/
theorem cancelled_turn_still_flushes :
    turnPendingFiles [] [c2ChunkA, c2ChunkB] true
      = [⟨"hello.py".toList, "print(\"hi\")".toList⟩] := by
  decide

/-- Claim C3 (amended).  A failed or cancelled turn is flushed exactly like a
successful one: every artifact the extractor completed during the turn ends up
on the pending-files list. -/
theorem failed_turn_flushes_extracted (pending : List Artifact)
    (yielded : List (List Char)) (a : Artifact)
    (h : a ∈ (feed yielded).extractedFiles) :
    a ∈ turnPendingFiles pending yielded true := by
  have hx : a ∈ flushArtifacts (feed yielded) := by
    unfold flushArtifacts
    split
    · exact List.mem_append_left _ h
    · exact h
  unfold turnPendingFiles
  simp only [if_pos rfl]
  exact List.mem_append_right _ hx

/-- Concrete instance of `failed_turn_flushes_extracted`. -/
theorem failed_turn_flushes_extracted_witness :
    (⟨"hello.py".toList, "print(\"hi\")".toList⟩ : Artifact)
        ∈ (feed [c2ChunkA, c2ChunkB]).extractedFiles ∧
    (⟨"hello.py".toList, "print(\"hi\")".toList⟩ : Artifact)
        ∈ turnPendingFiles [] [c2ChunkA, c2ChunkB] true :=
  ⟨by decide, failed_turn_flushes_extracted [] [c2ChunkA, c2ChunkB] _ (by decide)⟩

/-- Claim C4 (counterexample).  A stream ending while the extractor is
CAPTURING can be dropped silently: after `"```python:a.py\nhi"` the extractor
is in a block with body text `"hi"` still in the unflushed buffer and
`this.code` empty, and `flush` emits nothing. -/
theorem unterminated_short_block_dropped :
    (feed [c4Chunk]).inBlock = true ∧ extract [c4Chunk] = [] := by
  decide

/-- Claim C4 (amended).  If the stream ends while still CAPTURING **and the
committed body `this.code` is non-empty**, `flush` emits exactly one artifact
for the open block, whose content is everything captured so far including the
unflushed trailing buffer (trimmed); when the committed body is empty the
unterminated block is dropped (see the counterexample). -/
theorem flush_unterminated_block (chunks : List (List Char))
    (hb : (feed chunks).inBlock = true) (hc : (feed chunks).code ≠ []) :
    extract chunks
      = (feed chunks).extractedFiles
        ++ [⟨(feed chunks).filename,
             jsTrim ((feed chunks).code ++ (feed chunks).buffer)⟩] := by
  unfold extract flushArtifacts
  rw [if_pos ⟨hb, hc⟩]

/-- Concrete instance of `flush_unterminated_block`. -/
theorem flush_unterminated_block_witness :
    (feed [c4wA, c4wB]).inBlock = true ∧ (feed [c4wA, c4wB]).code ≠ [] ∧
    extract [c4wA, c4wB]
      = (feed [c4wA, c4wB]).extractedFiles
        ++ [⟨(feed [c4wA, c4wB]).filename,
             jsTrim ((feed [c4wA, c4wB]).code ++ (feed [c4wA, c4wB]).buffer)⟩] :=
  ⟨by decide, by decide, flush_unterminated_block [c4wA, c4wB] (by decide) (by decide)⟩

theorem tryOpenAt_eq_some (s path r : List Char) :
    tryOpenAt s = some (path, r) ↔
      ∃ tag, tag ≠ [] ∧ tag.all isWordChar = true ∧ path ≠ [] ∧
        path.all (fun ch => ch != '\n') = true ∧
        s = '\x60' :: '\x60' :: '\x60' :: (tag ++ ':' :: (path ++ '\n' :: r)) := by
  constructor
  · intro h
    match s with
    | [] => simp [tryOpenAt] at h
    | [a] => simp [tryOpenAt] at h
    | [a, b] => simp [tryOpenAt] at h
    | a :: b :: c :: rest =>
      simp only [tryOpenAt] at h
      by_cases habc : a = '\x60' ∧ b = '\x60' ∧ c = '\x60'
      · rw [if_pos habc] at h
        obtain ⟨rfl, rfl, rfl⟩ := habc
        by_cases htag : rest.takeWhile isWordChar = []
        · rw [if_pos htag] at h; cases h
        · rw [if_neg htag] at h
          rcases hdrop : rest.dropWhile isWordChar with _ | ⟨d, rest2⟩
          · rw [hdrop] at h; simp at h
          · rw [hdrop] at h
            simp only [List.head?_cons, List.tail_cons, Option.some.injEq] at h
            by_cases hd : d = ':'
            · rw [if_pos hd] at h
              by_cases hpath : rest2.takeWhile (fun ch => ch != '\n') = []
              · rw [if_pos hpath] at h; cases h
              · rw [if_neg hpath] at h
                rcases hdrop2 : rest2.dropWhile (fun ch => ch != '\n') with _ | ⟨e, rest3⟩
                · rw [hdrop2] at h; simp at h
                · rw [hdrop2] at h
                  simp only [List.head?_cons, List.tail_cons, Option.some.injEq] at h
                  by_cases he : e = '\n'
                  · rw [if_pos he] at h
                    simp only [Option.some.injEq, Prod.mk.injEq] at h
                    obtain ⟨hpeq, hreq⟩ := h
                    subst hpeq; subst hreq
                    refine ⟨rest.takeWhile isWordChar, htag, ?_, hpath, ?_, ?_⟩
                    · exact List.all_eq_true.mpr fun x hx =>
                        List.mem_takeWhile_imp (p := isWordChar) hx
                    · exact List.all_eq_true.mpr fun x hx =>
                        List.mem_takeWhile_imp (p := fun ch => ch != '\n') hx
                    · have hr2 : rest2 = rest2.takeWhile (fun ch => ch != '\n')
                          ++ '\n' :: rest3 := by
                        conv_lhs =>
                          rw [← List.takeWhile_append_dropWhile (fun ch => ch != '\n') rest2]
                        rw [hdrop2, he]
                      have hr : rest = rest.takeWhile isWordChar
                          ++ ':' :: (rest2.takeWhile (fun ch => ch != '\n')
                            ++ '\n' :: rest3) := by
                        conv_lhs => rw [← List.takeWhile_append_dropWhile isWordChar rest]
                        rw [hdrop, hd, ← hr2]
                      rw [← hr]
                  · rw [if_neg he] at h; cases h
            · rw [if_neg hd] at h; cases h
      · rw [if_neg habc] at h; cases h
  · rintro ⟨tag, htag, hall, hpath, hpall, rfl⟩
    have hcolon : isWordChar ':' = false := by decide
    have hnl : (('\n' : Char) != '\n') = false := by decide
    obtain ⟨ht1, ht2⟩ := takeWhile_append_stop tag ':' (path ++ '\n' :: r) hall hcolon
    obtain ⟨hp1, hp2⟩ := takeWhile_append_stop path '\n' r hpall hnl
    simp [tryOpenAt, ht1, ht2, htag, hp1, hp2, hpath]

theorem tryOpenAt_append (s e path r : List Char)
    (h : tryOpenAt s = some (path, r)) :
    tryOpenAt (s ++ e) = some (path, r ++ e) := by
  rcases (tryOpenAt_eq_some s path r).mp h with ⟨tag, h1, h2, h3, h4, rfl⟩
  exact (tryOpenAt_eq_some _ path (r ++ e)).mpr ⟨tag, h1, h2, h3, h4, by simp⟩

theorem matchOpen_eq_none_iff (l : List Char) :
    matchOpen l = none ↔ ∀ i, tryOpenAt (l.drop i) = none := by
  induction l with
  | nil => simp [matchOpen, tryOpenAt]
  | cons c rest ih =>
      constructor
      · intro h i
        rcases ht : tryOpenAt (c :: rest) with _ | pr
        · cases i with
          | zero => simpa using ht
          | succ j =>
              have hrest : matchOpen rest = none := by
                simp only [matchOpen, ht] at h; exact h
              simpa using (ih.mp hrest) j
        · simp [matchOpen, ht] at h
      · intro h
        have h0 : tryOpenAt (c :: rest) = none := by simpa using h 0
        simp only [matchOpen, h0]
        exact ih.mpr fun i => by simpa using h (i + 1)

theorem matchOpen_none_of_append_left {a b : List Char}
    (h : matchOpen (a ++ b) = none) : matchOpen a = none := by
  rw [matchOpen_eq_none_iff] at h ⊢
  intro i
  by_cases hi : i ≤ a.length
  · rcases ht : tryOpenAt (a.drop i) with _ | ⟨path, r⟩
    · rfl
    · exfalso
      have hsome := tryOpenAt_append (a.drop i) b path r ht
      rw [← List.drop_append_of_le_length hi] at hsome
      rw [h i] at hsome
      cases hsome
  · rw [List.drop_eq_nil_of_le (le_of_not_le hi)]
    rfl

theorem matchOpen_none_drop {l : List Char} (k : Nat)
    (h : matchOpen l = none) : matchOpen (l.drop k) = none := by
  rw [matchOpen_eq_none_iff] at h ⊢
  intro i
  rw [List.drop_drop]
  exact h (k + i)

theorem scanStep_no_match (st : ExtractorState) (h : matchOpen st.buffer = none) :
    scanStep st =
      if st.buffer.length > 200 then
        { st with buffer := st.buffer.drop (st.buffer.length - 200) }
      else st := by
  simp [scanStep, h]

set_option maxRecDepth 4000 in
theorem feed_no_open_aux (chunks : List (List Char)) :
    ∀ st : ExtractorState, st.inBlock = false → st.code = [] →
      st.extractedFiles = [] →
      matchOpen (st.buffer ++ chunks.flatten) = none →
      (chunks.foldl process st).inBlock = false ∧
      (chunks.foldl process st).code = [] ∧
      (chunks.foldl process st).extractedFiles = [] := by
  induction chunks with
  | nil => intro st h1 h2 h3 _; exact ⟨h1, h2, h3⟩
  | cons c cs ih =>
      intro st h1 h2 h3 hm
      have hm1 : matchOpen ((st.buffer ++ c) ++ cs.flatten) = none := by
        simpa [List.append_assoc] using hm
      have hmc : matchOpen (st.buffer ++ c) = none :=
        matchOpen_none_of_append_left hm1
      have hproc : process st c =
          scanStep { st with buffer := st.buffer ++ c } := by
        simp [process, processBuf, h1]
      rw [List.foldl_cons, hproc,
        scanStep_no_match { st with buffer := st.buffer ++ c } hmc]
      by_cases hlen : (st.buffer ++ c).length > 200
      · rw [if_pos hlen]
        apply ih
        · exact h1
        · exact h2
        · exact h3
        · show matchOpen ((st.buffer ++ c).drop ((st.buffer ++ c).length - 200)
              ++ cs.flatten) = none
          rw [← List.drop_append_of_le_length (by omega)]
          exact matchOpen_none_drop _ hm1
      · rw [if_neg hlen]
        exact ih { st with buffer := st.buffer ++ c } h1 h2 h3 hm1

/-- Claim C10.  The extractor opens a block only on an opening fence whose tag
is a non-empty run of word characters followed by `:` and a non-empty path:
for every input stream whose text contains no occurrence of that pattern — in
particular streams whose fences carry tags like `c++` or `objective-c`, or no
`tag:path` part at all — the extractor never transitions to CAPTURING and the
turn produces no artifact. -/
theorem invalid_tag_never_captures (chunks : List (List Char))
    (h : matchOpen chunks.flatten = none) :
    (feed chunks).inBlock = false ∧ extract chunks = [] := by
  have haux := feed_no_open_aux chunks initExtractor rfl rfl rfl
    (by simpa [initExtractor] using h)
  refine ⟨haux.1, ?_⟩
  have hIB : (feed chunks).inBlock = false := haux.1
  have hEF : (feed chunks).extractedFiles = [] := haux.2.2
  simp [extract, feed, flushArtifacts, hIB, hEF] at *
  simp [extract, flushArtifacts, hIB, hEF]

/-- Concrete instance of `invalid_tag_never_captures`: a fence whose tag is
`c++` (split across two chunks) never opens a block. -/
theorem invalid_tag_never_captures_witness :
    matchOpen (List.flatten [c10wA, c10wB]) = none ∧
    ((feed [c10wA, c10wB]).inBlock = false ∧ extract [c10wA, c10wB] = []) :=
  ⟨by decide, invalid_tag_never_captures [c10wA, c10wB] (by decide)⟩

theorem splitLast_fst_nil (l : List Char) (h : (splitLast l).1 = []) :
    (splitLast l).2 = l := by
  induction l with
  | nil => rfl
  | cons c rest ih =>
      by_cases hc : c = '\n'
      · simp [splitLast, hc] at h
      · simp only [splitLast, if_neg hc] at h ⊢
        rcases hp : (splitLast rest).1 with _ | ⟨l0, ls⟩
        · simp only [hp]
          rw [ih hp]
        · rw [hp] at h; cases h

theorem splitLast_no_newline_snd (l : List Char) : '\n' ∉ (splitLast l).2 := by
  induction l with
  | nil => simp [splitLast]
  | cons c rest ih =>
      by_cases hc : c = '\n'
      · simpa [splitLast, hc] using ih
      · simp only [splitLast, if_neg hc]
        rcases hp : (splitLast rest).1 with _ | ⟨l0, ls⟩
        · simp only [List.mem_cons]
          rintro (h | h)
          · exact hc h.symm
          · exact ih h
        · simpa using ih

theorem splitLast_of_no_newline (l : List Char) (h : '\n' ∉ l) :
    splitLast l = ([], l) := by
  induction l with
  | nil => rfl
  | cons c rest ih =>
      have hc : ¬ c = '\n' := fun he => h (he ▸ List.mem_cons_self c rest)
      have hrest : '\n' ∉ rest := fun he => h (List.mem_cons_of_mem c he)
      simp [splitLast, hc, ih hrest]

theorem splitLast_append (a b : List Char) :
    splitLast (a ++ b)
      = ((splitLast a).1 ++ (splitLast ((splitLast a).2 ++ b)).1,
         (splitLast ((splitLast a).2 ++ b)).2) := by
  induction a with
  | nil => simp [splitLast]
  | cons c a ih =>
      by_cases hc : c = '\n'
      · have e1 : splitLast ((c :: a) ++ b)
            = ([] :: (splitLast (a ++ b)).1, (splitLast (a ++ b)).2) := by
          simp [splitLast, hc]
        have e2 : splitLast (c :: a) = ([] :: (splitLast a).1, (splitLast a).2) := by
          simp [splitLast, hc]
        rw [e1, e2, ih]
        simp
      · rcases hA : (splitLast a).1 with _ | ⟨l0, ls⟩
        · have hA2 : (splitLast a).2 = a := splitLast_fst_nil a hA
          have e2 : splitLast (c :: a) = ([], c :: a) := by
            simp [splitLast, hc, hA, hA2]
          rw [e2]
          simp
        · have e1 : splitLast ((c :: a) ++ b)
              = ((c :: l0) :: (ls ++ (splitLast ((splitLast a).2 ++ b)).1),
                 (splitLast ((splitLast a).2 ++ b)).2) := by
            have hx : (splitLast (a ++ b)).1
                = l0 :: (ls ++ (splitLast ((splitLast a).2 ++ b)).1) := by
              rw [ih, hA]; simp
            have hy : (splitLast (a ++ b)).2
                = (splitLast ((splitLast a).2 ++ b)).2 := by
              rw [ih]
            simp [splitLast, hc, hx, hy]
          have e2 : splitLast (c :: a) = ((c :: l0) :: ls, (splitLast a).2) := by
            simp [splitLast, hc, hA]
          rw [e1, e2]
          simp

theorem runLines_append (parse : List Char → PayloadInfo)
    (l1 l2 : List (List Char)) :
    runLines parse (l1 ++ l2) = seqOut (runLines parse l1) (runLines parse l2) := by
  induction l1 with
  | nil =>
      cases h2 : runLines parse l2 <;> simp [runLines, seqOut, h2]
  | cons l ls ih =>
      have expand : ∀ L : List (List Char),
          runLines parse (l :: L)
            = (match processLine parse l with
               | .skip => runLines parse L
               | .yield content =>
                   match runLines parse L with
                   | .more ys => .more (content :: ys)
                   | .stopped ys e2 => .stopped (content :: ys) e2
               | .done => .stopped [] none
               | .fail m => .stopped [] (some m)) := fun _ => rfl
      rw [show (l :: ls) ++ l2 = l :: (ls ++ l2) from rfl, expand (ls ++ l2),
        expand ls]
      cases hstep : processLine parse l with
      | skip => exact ih
      | yield content =>
          dsimp only
          rw [ih]
          cases hL : runLines parse ls with
          | more ys =>
              cases h2 : runLines parse l2 <;> simp [seqOut]
          | stopped ys e2 => simp [seqOut]
      | done => simp [seqOut]
      | fail m => simp [seqOut]

theorem runChunks_eq (parse : List Char → PayloadInfo)
    (chunks : List (List Char)) :
    ∀ buffer : List Char, '\n' ∉ buffer →
      runChunks parse buffer chunks
        = runAll parse (splitLast (buffer ++ chunks.flatten)) := by
  induction chunks with
  | nil =>
      intro buffer h
      have : buffer ++ (List.flatten ([] : List (List Char))) = buffer := by simp
      rw [this, splitLast_of_no_newline buffer h]
      simp [runChunks, runAll, runLines]
  | cons c cs ih =>
      intro buffer h
      have hflat : buffer ++ (c :: cs).flatten = (buffer ++ c) ++ cs.flatten := by
        simp
      rw [hflat, splitLast_append (buffer ++ c) cs.flatten]
      have hnb : '\n' ∉ (splitLast (buffer ++ c)).2 := splitLast_no_newline_snd _
      simp only [runChunks]
      rw [ih (splitLast (buffer ++ c)).2 hnb]
      simp only [runAll]
      rw [runLines_append]
      cases hL : runLines parse (splitLast (buffer ++ c)).1 with
      | stopped ys e2 => simp [seqOut]
      | more ys =>
          cases hM : runLines parse
              (splitLast ((splitLast (buffer ++ c)).2 ++ cs.flatten)).1 with
          | more zs => simp [seqOut, List.append_assoc]
          | stopped zs e2 => simp [seqOut]

/-- Claim C5.  For a fixed full SSE payload delivered under any partition into
network chunks, the stream outcome — in particular the concatenation of all
yielded text deltas — is the same as when the payload arrives as one unsplit
chunk: incomplete trailing lines are buffered and only complete lines are
parsed, for any payload classifier. -/
theorem chatStream_split_invariance (parse : List Char → PayloadInfo)
    (chunks : List (List Char)) :
    chatStreamModel parse chunks = chatStreamModel parse [chunks.flatten] ∧
    (chatStreamModel parse chunks).yielded.flatten
      = (chatStreamModel parse [chunks.flatten]).yielded.flatten := by
  have h1 : chatStreamModel parse chunks
      = runAll parse (splitLast chunks.flatten) := by
    simpa using runChunks_eq parse chunks [] (by simp)
  have h2 : chatStreamModel parse [chunks.flatten]
      = runAll parse (splitLast chunks.flatten) := by
    simpa using runChunks_eq parse [chunks.flatten] [] (by simp)
  rw [h1, h2]
  exact ⟨rfl, rfl⟩

theorem processLine_skip_trans (parse : List Char → PayloadInfo)
    (pre rest : List (List Char)) (line : List Char)
    (h : processLine parse line = .skip) :
    runLines parse (pre ++ line :: rest) = runLines parse (pre ++ rest) := by
  have h1 : runLines parse (line :: rest) = runLines parse rest := by
    simp [runLines, h]
  rw [show pre ++ line :: rest = pre ++ (line :: rest) from rfl,
    runLines_append, h1, ← runLines_append]

theorem processLine_fail_stops (parse : List Char → PayloadInfo)
    (pre rest : List (List Char)) (line : List Char) (ys : List (List Char))
    (m : List Char) (hpre : runLines parse pre = .more ys)
    (h : processLine parse line = .fail m) :
    runLines parse (pre ++ line :: rest) = .stopped ys (some m) := by
  rw [show pre ++ line :: rest = pre ++ (line :: rest) from rfl,
    runLines_append, hpre]
  simp [runLines, h, seqOut]

theorem dataLine_trimmed_ne_nil {line : List Char}
    (h : dataMark.isPrefixOf (jsTrim line) = true) : jsTrim line ≠ [] := by
  intro he
  rw [he] at h
  exact absurd h (by decide)

theorem braceLine_trimmed_ne_nil {line : List Char}
    (h : (jsTrim line).head? = some '\x7b') : jsTrim line ≠ [] := by
  intro he
  rw [he] at h
  cases h

/-- Claim C7.  In the streaming parse loop, a line whose payload is malformed
JSON is silently skipped — running the loop with and without it gives exactly
the same result, nothing is yielded and nothing is raised — while a line whose
payload is well-formed JSON with an `error` member makes the stream fail with
that error, even when content deltas were already yielded by earlier lines
(which are preserved in the failing outcome).  Both the `data: `-marked branch
and the bare-JSON (`{`-led) branch behave this way. -/
theorem parse_noise_skipped_error_fails (parse : List Char → PayloadInfo)
    (pre rest : List (List Char)) (line : List Char) (ys : List (List Char))
    (hpre : runLines parse pre = .more ys) :
    (dataMark.isPrefixOf (jsTrim line) = true → (jsTrim line).drop 6 ≠ doneMark →
      parse ((jsTrim line).drop 6) = .malformed →
      runLines parse (pre ++ line :: rest) = runLines parse (pre ++ rest)) ∧
    (∀ m cont, dataMark.isPrefixOf (jsTrim line) = true →
      (jsTrim line).drop 6 ≠ doneMark →
      parse ((jsTrim line).drop 6) = .ok (some m) cont →
      runLines parse (pre ++ line :: rest) = .stopped ys (some m)) ∧
    (¬ dataMark.isPrefixOf (jsTrim line) = true →
      (jsTrim line).head? = some '\x7b' → parse (jsTrim line) = .malformed →
      runLines parse (pre ++ line :: rest) = runLines parse (pre ++ rest)) ∧
    (∀ m cont, ¬ dataMark.isPrefixOf (jsTrim line) = true →
      (jsTrim line).head? = some '\x7b' →
      parse (jsTrim line) = .ok (some m) cont →
      runLines parse (pre ++ line :: rest) = .stopped ys (some m)) := by
  refine ⟨?_, ?_, ?_, ?_⟩
  · intro hdata hdone hmal
    refine processLine_skip_trans parse pre rest line ?_
    simp [processLine, dataLine_trimmed_ne_nil hdata, hdata, hdone, hmal]
  · intro m cont hdata hdone herr
    refine processLine_fail_stops parse pre rest line ys m hpre ?_
    simp [processLine, dataLine_trimmed_ne_nil hdata, hdata, hdone, herr]
  · intro hnodata hbrace hmal
    refine processLine_skip_trans parse pre rest line ?_
    simp [processLine, braceLine_trimmed_ne_nil hbrace, hnodata, hbrace, hmal]
  · intro m cont hnodata hbrace herr
    refine processLine_fail_stops parse pre rest line ys m hpre ?_
    simp [processLine, braceLine_trimmed_ne_nil hbrace, hnodata, hbrace, herr]

/-- Concrete instance of `parse_noise_skipped_error_fails` under `samplePI`:
after a good delta line, a malformed line is transparent and an error-envelope
line fails the stream while keeping the already-yielded delta. -/
theorem parse_noise_skipped_error_fails_witness :
    runLines samplePI ["data: GOOD".toList] = .more ["GOOD".toList] ∧
    runLines samplePI
        (["data: GOOD".toList] ++ "data: BAD".toList :: ["data: XY".toList])
      = runLines samplePI (["data: GOOD".toList] ++ ["data: XY".toList]) ∧
    runLines samplePI
        (["data: GOOD".toList] ++ "data: ERR".toList :: ["data: XY".toList])
      = .stopped ["GOOD".toList] (some ("boom".toList)) := by
  refine ⟨by decide, ?_, ?_⟩
  · exact (parse_noise_skipped_error_fails samplePI ["data: GOOD".toList]
      ["data: XY".toList] ("data: BAD".toList) ["GOOD".toList] (by decide)).1
      (by decide) (by decide) (by decide)
  · exact (parse_noise_skipped_error_fails samplePI ["data: GOOD".toList]
      ["data: XY".toList] ("data: ERR".toList) ["GOOD".toList] (by decide)).2.1
      ("boom".toList) none (by decide) (by decide) (by decide)

/-- Claim C9.  A cancelled or timed-out stream fails with the platform abort
error, whose `name` (`"AbortError"`) differs from the `name` of every
transport error (non-2xx status) and every protocol error (embedded error
envelope), both of which are plain `Error`s — so the caller can distinguish
the timeout/cancellation kind and offer the retry suggestion for it, as the
Handler's retry branch does. -/
theorem abort_error_distinguishable (cause : AbortCause)
    (status body m : List Char) :
    (streamAbortFailure cause).name = "AbortError".toList ∧
    (mkApiError status body).name ≠ (streamAbortFailure cause).name ∧
    (mkEnvelopeError m).name ≠ (streamAbortFailure cause).name ∧
    isRetrySuggested (streamAbortFailure cause) = true := by
  have hne : ("Error".toList : List Char) ≠ "AbortError".toList := by decide
  cases cause <;> exact ⟨rfl, hne, hne, by decide⟩

end Sonar

